import Mathlib

/-!
Verification of the narrative framing extraction engine
(`src/pipeline/signal/phrase_extraction.py`, class `PhraseExtractor`).

Python strings are modelled as lists of characters (`Str`); the external
sentence/word tokenization capability (nltk) is a parameter of the model
(structure `Tokenizers`), since the spec treats it as an external collaborator.
Each `def` mirrors one function or loop of the source file; line numbers in the
doc comments refer to `phrase_extraction.py`.
-/

/-- A Python string, as its list of characters. -/
abbrev Str : Type := List Char

/-- Python `s.lower()` (ASCII case folding). -/
def lowerStr (s : Str) : Str := s.map Char.toLower

/-- A regex word character (`\w`): alphanumeric or underscore. -/
def isWordChar (c : Char) : Bool := c.isAlphanum || c == '_'

/-- Python `re.sub(r'[^\w\s]', '', s)`: drop characters that are neither
word characters nor whitespace. -/
def stripNonWord (s : Str) : Str := s.filter (fun c => isWordChar c || c.isWhitespace)

/-- Fuel-driven worker for `removeUrls`; the fuel is an upper bound on the
number of steps so that the recursion is structural. -/
def removeUrlsF : Nat → Str → Str
  | 0, s => s
  | _ + 1, [] => []
  | fuel + 1, 'h' :: 't' :: 't' :: 'p' :: d :: rest =>
      if d.isWhitespace then 'h' :: removeUrlsF fuel ('t' :: 't' :: 'p' :: d :: rest)
      else removeUrlsF fuel (rest.dropWhile (fun e => !e.isWhitespace))
  | fuel + 1, c :: cs => c :: removeUrlsF fuel cs

/-- Python `re.sub(r'http\S+', '', s)`: leftmost non-overlapping removal of
`http` followed by one or more non-space characters. -/
def removeUrls (s : Str) : Str := removeUrlsF s.length s

/-- Python `s.strip()`. -/
def stripStr (s : Str) : Str :=
  ((s.dropWhile Char.isWhitespace).reverse.dropWhile Char.isWhitespace).reverse

/-- Python `p in q` on strings: contiguous substring test. -/
def isSubstr (p q : Str) : Bool := q.tails.any (fun t => p.isPrefixOf t)

/-- Worker for `words`: accumulates the current token in reverse. -/
def wordsAux (cur : Str) : Str → List Str
  | [] => if cur = [] then [] else [cur.reverse]
  | c :: cs =>
      if c.isWhitespace then (if cur = [] then [] else [cur.reverse]) ++ wordsAux [] cs
      else wordsAux (c :: cur) cs

/-- Concrete word tokenizer used to instantiate the external capability in
witnesses: split on whitespace, dropping empty tokens. -/
def words (s : Str) : List Str := wordsAux [] s

/-- Worker for `splitDot`. -/
def splitDotAux (cur : Str) : Str → List Str
  | [] => [cur.reverse]
  | c :: cs => if c = '.' then cur.reverse :: splitDotAux [] cs else splitDotAux (c :: cur) cs

/-- Concrete sentence tokenizer used to instantiate the external capability in
witnesses: split on `'.'`. -/
def splitDot (s : Str) : List Str := splitDotAux [] s

/-- Python `" ".join(tokens)`. -/
def joinTokens : List Str → Str
  | [] => []
  | [t] => t
  | t :: ts => t ++ (' ' :: joinTokens ts)

/-- Lexicographic (code-point) order on strings, Python `p <= q`. -/
def strLeB : Str → Str → Bool
  | [], _ => true
  | _ :: _, [] => false
  | c :: cs, d :: ds => if c < d then true else if d < c then false else strLeB cs ds

/-- Python `list(set(xs))`, modelled as keeping the first occurrence of each
element; `seen` accumulates elements already emitted. -/
def dedupF (seen : List Str) : List Str → List Str
  | [] => []
  | x :: xs => if x ∈ seen then dedupF seen xs else x :: dedupF (x :: seen) xs

/-- Stable insertion into a list sorted so that `le x y` means `x` may come
after `y`; a newly inserted element goes after every element it relates to. -/
def insertSorted (le : α → α → Bool) (x : α) : List α → List α
  | [] => [x]
  | y :: ys => if le x y then y :: insertSorted le x ys else x :: y :: ys

/-- Stable sort (models Python's stable `sorted`). -/
def sortBy (le : α → α → Bool) (l : List α) : List α :=
  l.foldl (fun acc x => insertSorted le x acc) []

/-- Sort key for `sorted(..., key=len, reverse=True)`: with `insertSorted`,
`lenLe` yields descending length, stable. -/
def lenLe (a b : Str) : Bool := decide (a.length ≤ b.length)

/-- The keep-loop of `PhraseExtractor._filter_subphrases` (lines 104-117):
keep a phrase only if it is not a substring of an already kept phrase. -/
def keepMaximal : List Str → List Str → List Str
  | [], kept => kept
  | p :: rest, kept =>
      if kept.any (fun k => isSubstr p k) then keepMaximal rest kept
      else keepMaximal rest (kept ++ [p])

/-- `PhraseExtractor._filter_subphrases` (lines 94-117): deduplicate, sort by
descending length, then keep only phrases not contained in a kept phrase. -/
def filter_subphrases (phrases : List Str) : List Str :=
  if phrases = [] then [] else keepMaximal (sortBy lenLe (dedupF [] phrases)) []

/-- External sentence/word tokenization capability (nltk `sent_tokenize` and
`word_tokenize`), a parameter of the model. -/
structure Tokenizers where
  sent_tokenize : Str → List Str
  word_tokenize : Str → List Str

/-- The engine state: `window_size` and the stop-word set from `__init__`
(lines 17-20; the stop-word file contents are a parameter), plus the external
tokenizers. -/
structure PhraseExtractor where
  window_size : Nat := 7
  stopwords : List Str := []
  tok : Tokenizers

/-- `PhraseExtractor.clean_text` (lines 47-59): lowercase, strip URLs, replace
newlines by spaces, strip outer whitespace; empty text stays empty. -/
def cleanText (text : Str) : Str :=
  if text = [] then []
  else stripStr ((removeUrls (lowerStr text)).map (fun c => if c = '\n' then ' ' else c))

/-- Method wrapper for `clean_text`. -/
def PhraseExtractor.clean_text (_self : PhraseExtractor) (text : Str) : Str :=
  cleanText text

/-- The normalized entity tokens
`word_tokenize(re.sub(r'[^\w\s]', '', entity_word.lower()))` (lines 70, 131). -/
def entityTokens (self : PhraseExtractor) (entity_word : Str) : List Str :=
  self.tok.word_tokenize (stripNonWord (lowerStr entity_word))

/-- The inner scan of `get_context_windows` (lines 81-91): for every index
where the token sequence matches the entity tokens, emit the window
`tokens[max(0, i - W) : min(len(tokens), i + n + W)]`. -/
def windowsOf (tokens entity_tokens : List Str) (W : Nat) : List (List Str) :=
  (List.range (tokens.length + 1 - entity_tokens.length)).filterMap (fun i =>
    if (tokens.drop i).take entity_tokens.length = entity_tokens then
      some ((tokens.take (min tokens.length (i + entity_tokens.length + W))).drop (i - W))
    else none)

/-- `PhraseExtractor.get_context_windows` (lines 61-92). -/
def PhraseExtractor.get_context_windows (self : PhraseExtractor) (text entity_word : Str) :
    List (List Str) :=
  let entity_tokens := entityTokens self entity_word
  if entity_tokens = [] then []
  else
    (self.tok.sent_tokenize text).flatMap (fun sentence =>
      if isSubstr (lowerStr entity_word) (lowerStr sentence) then
        windowsOf (self.tok.word_tokenize (lowerStr (stripNonWord sentence))) entity_tokens
          self.window_size
      else [])

/-- The segment builder of `extract_from_article` (lines 139-150): split the
window at entity tokens; `cur` is the segment being accumulated. -/
def splitByEntity (ets : List Str) (cur : List Str) : List Str → List (List Str)
  | [] => if cur = [] then [] else [cur]
  | t :: ts =>
      if t ∈ ets then (if cur = [] then [] else [cur]) ++ splitByEntity ets [] ts
      else splitByEntity ets (cur ++ [t]) ts

/-- Stop-word trimming of a segment (lines 154-163): drop stop words from both
ends. -/
def trimStopwords (sw : List Str) (seg : List Str) : List Str :=
  let t := seg.dropWhile (fun tok => decide (tok ∈ sw))
  ((t.reverse.dropWhile (fun tok => decide (tok ∈ sw))).reverse)

/-- Candidate generation from the windows (lines 133-174): per window, split at
entity tokens, trim stop words, keep segments of 2..8 tokens joined as phrases;
longer segments contribute their first 6 and last 6 tokens. -/
def candidatesOf (sw ets : List Str) (windows : List (List Str)) : List Str :=
  windows.flatMap (fun window =>
    (splitByEntity ets [] window).flatMap (fun seg =>
      let phrase_tokens := trimStopwords sw seg
      if 2 ≤ phrase_tokens.length ∧ phrase_tokens.length ≤ 8 then
        [joinTokens phrase_tokens]
      else if 8 < phrase_tokens.length then
        [joinTokens (phrase_tokens.take 6),
         joinTokens (phrase_tokens.drop (phrase_tokens.length - 6))]
      else []))

/-- `PhraseExtractor.extract_from_article` (lines 119-177). -/
def PhraseExtractor.extract_from_article (self : PhraseExtractor)
    (article_text entity_word : Str) : List Str :=
  let text := cleanText article_text
  let windows := self.get_context_windows text entity_word
  filter_subphrases (dedupF [] (candidatesOf self.stopwords (entityTokens self entity_word) windows))

/-- An input article; only `title`, `summary` and `url` are consumed
(`article.get`, lines 188, 199), with `url` possibly absent. -/
structure Article where
  title : Str := []
  summary : Str := []
  url : Option Str := none
deriving DecidableEq

/-- The per-phrase aggregate `{"count": ..., "sources": set(...)}`
(line 196). -/
structure PData where
  count : Nat
  sources : List Str
deriving DecidableEq

/-- One output record `{phrase, count, sources}` (lines 220-224). -/
structure PhraseRecord where
  phrase : Str
  count : Nat
  sources : List Str
deriving DecidableEq

/-- Python `if url: sources.add(url)` (lines 199-201): `None` and the empty
string are falsy; the set is modelled as a duplicate-free list. -/
def addSource (sources : List Str) (url : Option Str) : List Str :=
  match url with
  | none => sources
  | some u => if u = [] then sources else if u ∈ sources then sources else sources ++ [u]

/-- One step of the aggregation loop (lines 193-201): bump the count of
`phrase` and record the source url, inserting a fresh record at the end of the
(insertion-ordered) dict if the phrase is new. -/
def updatePD : List (Str × PData) → Str → Option Str → List (Str × PData)
  | [], phrase, url => [(phrase, ⟨1, addSource [] url⟩)]
  | (q, r) :: rest, phrase, url =>
      if q = phrase then (q, ⟨r.count + 1, addSource r.sources url⟩) :: rest
      else (q, r) :: updatePD rest phrase url

/-- The inner `for phrase in phrases` loop of `extract_phrases`. -/
def updateAll (url : Option Str) : List (Str × PData) → List Str → List (Str × PData)
  | pd, [] => pd
  | pd, p :: ps => updateAll url (updatePD pd p url) ps

/-- The combined text `f"{title}. {summary}"` (line 188). -/
def articleText (a : Article) : Str := a.title ++ ('.' :: ' ' :: a.summary)

/-- The outer `for article in articles` loop of `extract_phrases`
(lines 184-201). -/
def buildPhraseData (self : PhraseExtractor) (entity_word : Str) :
    List Article → List (Str × PData) → List (Str × PData)
  | [], pd => pd
  | a :: rest, pd =>
      buildPhraseData self entity_word rest
        (updateAll a.url pd (self.extract_from_article (articleText a) entity_word))

/-- Dict lookup in the insertion-ordered phrase map. -/
def pdFind : List (Str × PData) → Str → Option PData
  | [], _ => none
  | (q, r) :: rest, p => if q = p then some r else pdFind rest p

/-- The count of a phrase in the map (0 when absent). -/
def pdCount (pd : List (Str × PData)) (p : Str) : Nat :=
  match pdFind pd p with
  | some r => r.count
  | none => 0

/-- Sort key for `sorted(items, key=lambda x: x[1]['count'], reverse=True)`
(line 213): with `insertSorted`, descending count, stable. -/
def cntLe (a b : Str × PData) : Bool := decide (a.2.count ≤ b.2.count)

/-- Lines 203-226 of `extract_phrases`: aggregate deduplication by substring
dominance, restriction of the map to kept phrases, sort by descending count,
saliency filter `count > 1`, and output formatting. -/
def finalizePD (pd : List (Str × PData)) : List PhraseRecord :=
  let all_phrases := sortBy lenLe (pd.map Prod.fst)
  let kept_phrases := filter_subphrases all_phrases
  let pd2 := kept_phrases.filterMap (fun p => (pdFind pd p).map (fun r => (p, r)))
  let sorted_phrases := sortBy cntLe pd2
  (sorted_phrases.filter (fun pr => decide (1 < pr.2.count))).map
    (fun pr => ⟨pr.1, pr.2.count, pr.2.sources⟩)

/-- `PhraseExtractor.extract_phrases` (lines 179-226). -/
def PhraseExtractor.extract_phrases (self : PhraseExtractor) (entity_word : Str)
    (articles : List Article) : List PhraseRecord :=
  finalizePD (buildPhraseData self entity_word articles [])

/-- The method as a state transformer: the source assigns no attribute of
`self` inside `extract_phrases`, so the post-state equals the pre-state. -/
def PhraseExtractor.extract_phrases_run (self : PhraseExtractor) (entity_word : Str)
    (articles : List Article) : List PhraseRecord × PhraseExtractor :=
  (self.extract_phrases entity_word articles, self)

/-- A well-behaved word tokenizer: every produced token is nonempty and free of
whitespace (true of nltk `word_tokenize` on punctuation-stripped text). -/
def goodToks (tk : Tokenizers) : Prop :=
  ∀ s : Str, ∀ t ∈ tk.word_tokenize s, t ≠ [] ∧ ∀ c ∈ t, c.isWhitespace = false

/-- No two distinct members of the list are in a substring relationship. -/
def SubFree (l : List Str) : Prop :=
  ∀ p ∈ l, ∀ q ∈ l, p ≠ q → ¬ p <:+: q

/-- Aggregation invariant: each record has at most `count` sources, all drawn
from the urls of the articles in `arts`. -/
def SrcInv (arts : List Article) (pd : List (Str × PData)) : Prop :=
  ∀ pr ∈ pd, pr.2.sources.length ≤ pr.2.count ∧
    ∀ u ∈ pr.2.sources, ∃ a ∈ arts, a.url = some u

/-- Fallible tokenizers: tokenization of a single unit may raise
(`Except.error`), as the spec's external-interface section allows. -/
structure TokenizersE where
  sent_tokenize : Str → Except String (List Str)
  word_tokenize : Str → Except String (List Str)

/-- The engine over fallible tokenizers, used to settle the failure-semantics
claim; the source has no `try/except` in `extract_phrases`, so errors
propagate. -/
structure PhraseExtractorE where
  window_size : Nat := 7
  stopwords : List Str := []
  tok : TokenizersE

/-- `get_context_windows` over fallible tokenizers: the first tokenization
error aborts the function (no handler in the source, lines 61-92). -/
def PhraseExtractorE.get_context_windows (self : PhraseExtractorE) (text entity_word : Str) :
    Except String (List (List Str)) := do
  let sentences ← self.tok.sent_tokenize text
  let entity_tokens ← self.tok.word_tokenize (stripNonWord (lowerStr entity_word))
  if entity_tokens = [] then
    pure []
  else do
    let wss ← sentences.mapM (fun sentence =>
      if isSubstr (lowerStr entity_word) (lowerStr sentence) then do
        let tokens ← self.tok.word_tokenize (lowerStr (stripNonWord sentence))
        pure (windowsOf tokens entity_tokens self.window_size)
      else pure [])
    pure wss.flatten

/-- `extract_from_article` over fallible tokenizers: errors propagate
(no handler in the source, lines 119-177). -/
def PhraseExtractorE.extract_from_article (self : PhraseExtractorE)
    (article_text entity_word : Str) : Except String (List Str) := do
  let text := cleanText article_text
  let windows ← self.get_context_windows text entity_word
  let entity_tokens_clean ← self.tok.word_tokenize (stripNonWord (lowerStr entity_word))
  pure (filter_subphrases (dedupF [] (candidatesOf self.stopwords entity_tokens_clean windows)))

/-- The article loop of `extract_phrases` over fallible tokenizers: the loop
body (lines 186-201) is not wrapped in `try/except`, so an error while
processing one article aborts the whole batch. -/
def buildPhraseDataE (self : PhraseExtractorE) (entity_word : Str) :
    List Article → List (Str × PData) → Except String (List (Str × PData))
  | [], pd => pure pd
  | a :: rest, pd => do
      let phrases ← self.extract_from_article (articleText a) entity_word
      buildPhraseDataE self entity_word rest (updateAll a.url pd phrases)

/-- `extract_phrases` over fallible tokenizers. -/
def PhraseExtractorE.extract_phrases (self : PhraseExtractorE) (entity_word : Str)
    (articles : List Article) : Except String (List PhraseRecord) := do
  let pd ← buildPhraseDataE self entity_word articles []
  pure (finalizePD pd)

/-- Concrete instantiation of the external tokenization capability. -/
def tokSimple : Tokenizers := { sent_tokenize := splitDot, word_tokenize := words }

/-- Concrete engine instance (empty stop-word set, default window size). -/
def exSimple : PhraseExtractor := { stopwords := [], tok := tokSimple }

/-- A fallible sentence tokenizer failing exactly on text containing `'q'`. -/
def sentTokFail (s : Str) : Except String (List Str) :=
  if 'q' ∈ s then .error ("boom") else .ok (splitDot s)

/-- Concrete engine instance over fallible tokenizers. -/
def exE : PhraseExtractorE :=
  { stopwords := [],
    tok := { sent_tokenize := sentTokFail, word_tokenize := fun s => .ok (words s) } }

/-- Article whose combined text has two sentences mentioning the entity. -/
def artZ : Article := { title := ("zz xx yy ee. aa bb ee").toList, summary := [], url := none }

/-- Simple article mentioning the entity `ee` once. -/
def artA : Article := { title := ("aa bb ee").toList, summary := [], url := none }

/-- Article whose text makes the fallible sentence tokenizer raise. -/
def artQ : Article := { title := ("qq").toList, summary := [], url := none }

/-- Like `artA` with a source url. -/
def artU1 : Article := { title := ("aa bb ee").toList, summary := [], url := some (("u1").toList) }

/-- Like `artA` with a different source url. -/
def artU2 : Article := { title := ("aa bb ee").toList, summary := [], url := some (("u2").toList) }

/-- The record produced by `extract_phrases` on `[artU1, artU2]` for entity `ee`. -/
def recU : PhraseRecord := ⟨("aa bb").toList, 2, [("u1").toList, ("u2").toList]⟩

theorem isSubstr_iff (p q : Str) : isSubstr p q = true ↔ p <:+: q := by
  unfold isSubstr
  rw [List.any_eq_true]
  constructor
  · rintro ⟨t, ht, hp⟩
    rw [List.mem_tails] at ht
    rw [ List.isPrefixOf_iff_prefix] at hp
    exact List.infix_iff_prefix_suffix.mpr ⟨t, hp, ht⟩
  · intro h
    obtain ⟨t, hp, ht⟩ := List.infix_iff_prefix_suffix.mp h
    refine ⟨t, (List.mem_tails t q).mpr ht, ?_⟩
    rw [ List.isPrefixOf_iff_prefix]
    exact hp

theorem isSubstr_self (p : Str) : isSubstr p p = true :=
  (isSubstr_iff p p).mpr List.infix_rfl

theorem infixOfPre {α : Type} {p q : List α} (h : p <+: q) : p <:+: q := by
  obtain ⟨t, ht⟩ := h
  exact ⟨[], t, by simp [ht]⟩

theorem infixOfSuf {α : Type} {p q : List α} (h : p <:+ q) : p <:+: q := by
  obtain ⟨t, ht⟩ := h
  exact ⟨t, [], by simp [ht]⟩

theorem slice_infix {α : Type} (l : List α) (s e : Nat) : (l.take e).drop s <:+: l :=
  ⟨(l.take e).take s, l.drop e, by rw [List.take_append_drop, List.take_append_drop]⟩

theorem revDropWhilePre {α : Type} (p : α → Bool) (l : List α) :
    ((l.reverse.dropWhile p).reverse) <+: l := by
  obtain ⟨s, hs⟩ := (List.dropWhile_suffix p : l.reverse.dropWhile p <:+ l.reverse)
  exact ⟨s.reverse, by rw [← List.reverse_append, hs, List.reverse_reverse]⟩

theorem dedupF_sub : ∀ (l seen : List Str), ∀ a ∈ dedupF seen l, a ∈ l := by
  intro l
  induction l with
  | nil => intro seen a ha; simp [dedupF] at ha
  | cons x xs ih =>
    intro seen a ha
    by_cases hx : x ∈ seen
    · simp [dedupF, hx] at ha
      exact List.mem_cons_of_mem _ (ih seen a ha)
    · simp [dedupF, hx] at ha
      rcases ha with h | h
      · simp [h]
      · exact List.mem_cons_of_mem _ (ih _ a h)

theorem mem_insertSorted {α : Type} (le : α → α → Bool) (x : α) :
    ∀ (l : List α) (a : α), a ∈ insertSorted le x l ↔ a = x ∨ a ∈ l := by
  intro l
  induction l with
  | nil => intro a; simp [insertSorted]
  | cons y ys ih =>
    intro a
    by_cases hle : le x y = true
    · rw [show insertSorted le x (y :: ys) = y :: insertSorted le x ys from by
        simp [insertSorted, hle]]
      rw [List.mem_cons, ih a, List.mem_cons]
      tauto
    · rw [show insertSorted le x (y :: ys) = x :: y :: ys from by
        simp [insertSorted, hle]]
      simp only [List.mem_cons]

theorem mem_foldl_insertSorted {α : Type} (le : α → α → Bool) :
    ∀ (l acc : List α) (a : α),
      a ∈ l.foldl (fun acc x => insertSorted le x acc) acc ↔ a ∈ acc ∨ a ∈ l := by
  intro l
  induction l with
  | nil => intro acc a; simp
  | cons x xs ih =>
    intro acc a
    simp only [List.foldl_cons, List.mem_cons]
    rw [ih, mem_insertSorted]
    tauto

theorem mem_sortBy {α : Type} (le : α → α → Bool) (l : List α) (a : α) :
    a ∈ sortBy le l ↔ a ∈ l := by
  unfold sortBy
  rw [mem_foldl_insertSorted]
  simp

theorem pairwise_insertSorted {α : Type} (le : α → α → Bool)
    (htr : ∀ a b c, le a b = true → le b c = true → le a c = true)
    (hto : ∀ a b, le a b = true ∨ le b a = true) (x : α) :
    ∀ l : List α, (l.Pairwise fun a b => le b a = true) →
      ((insertSorted le x l).Pairwise fun a b => le b a = true) := by
  intro l
  induction l with
  | nil => intro _; simp [insertSorted]
  | cons y ys ih =>
    intro h
    rw [List.pairwise_cons] at h
    obtain ⟨hy, hys⟩ := h
    by_cases hle : le x y = true
    · rw [show insertSorted le x (y :: ys) = y :: insertSorted le x ys from by
        simp [insertSorted, hle]]
      rw [List.pairwise_cons]
      refine ⟨?_, ih hys⟩
      intro b hb
      rcases (mem_insertSorted le x ys b).mp hb with rfl | hb'
      · exact hle
      · exact hy b hb'
    · rw [show insertSorted le x (y :: ys) = x :: y :: ys from by
        simp [insertSorted, hle]]
      rw [List.pairwise_cons]
      have hyx : le y x = true := by
        rcases hto x y with h' | h'
        · exact absurd h' hle
        · exact h'
      refine ⟨?_, List.pairwise_cons.mpr ⟨hy, hys⟩⟩
      intro b hb
      rcases List.mem_cons.mp hb with rfl | hb'
      · exact hyx
      · exact htr b y x (hy b hb') hyx

theorem pairwise_foldl_insertSorted {α : Type} (le : α → α → Bool)
    (htr : ∀ a b c, le a b = true → le b c = true → le a c = true)
    (hto : ∀ a b, le a b = true ∨ le b a = true) :
    ∀ (l acc : List α), (acc.Pairwise fun a b => le b a = true) →
      ((l.foldl (fun acc x => insertSorted le x acc) acc).Pairwise
        fun a b => le b a = true) := by
  intro l
  induction l with
  | nil => intro acc h; simpa using h
  | cons x xs ih =>
    intro acc h
    simp only [List.foldl_cons]
    exact ih _ (pairwise_insertSorted le htr hto x acc h)

theorem pairwise_sortBy {α : Type} (le : α → α → Bool)
    (htr : ∀ a b c, le a b = true → le b c = true → le a c = true)
    (hto : ∀ a b, le a b = true ∨ le b a = true) (l : List α) :
    (sortBy le l).Pairwise fun a b => le b a = true :=
  pairwise_foldl_insertSorted le htr hto l [] (List.Pairwise.nil)

theorem lenLe_trans : ∀ a b c : Str, lenLe a b = true → lenLe b c = true → lenLe a c = true := by
  intro a b c hab hbc
  simp only [lenLe, decide_eq_true_eq] at *
  omega

theorem lenLe_total : ∀ a b : Str, lenLe a b = true ∨ lenLe b a = true := by
  intro a b
  simp only [lenLe, decide_eq_true_eq]
  omega

theorem cntLe_trans : ∀ a b c : Str × PData,
    cntLe a b = true → cntLe b c = true → cntLe a c = true := by
  intro a b c hab hbc
  simp only [cntLe, decide_eq_true_eq] at *
  omega

theorem cntLe_total : ∀ a b : Str × PData, cntLe a b = true ∨ cntLe b a = true := by
  intro a b
  simp only [cntLe, decide_eq_true_eq]
  omega

theorem keepMaximal_pos {p : Str} {rest kept : List Str}
    (h : kept.any (fun k => isSubstr p k) = true) :
    keepMaximal (p :: rest) kept = keepMaximal rest kept := by
  simp [keepMaximal, h]

theorem keepMaximal_neg {p : Str} {rest kept : List Str}
    (h : ¬ kept.any (fun k => isSubstr p k) = true) :
    keepMaximal (p :: rest) kept = keepMaximal rest (kept ++ [p]) := by
  simp [keepMaximal, h]

theorem mem_keepMaximal : ∀ (l kept : List Str), ∀ a ∈ keepMaximal l kept, a ∈ kept ∨ a ∈ l := by
  intro l
  induction l with
  | nil => intro kept a ha; simp only [keepMaximal] at ha; exact Or.inl ha
  | cons p rest ih =>
    intro kept a ha
    by_cases h : kept.any (fun k => isSubstr p k) = true
    · rw [keepMaximal_pos h] at ha
      rcases ih kept a ha with h' | h'
      · exact Or.inl h'
      · exact Or.inr (List.mem_cons_of_mem _ h')
    · rw [keepMaximal_neg h] at ha
      rcases ih (kept ++ [p]) a ha with h' | h'
      · rcases List.mem_append.mp h' with h'' | h''
        · exact Or.inl h''
        · simp at h''
          exact Or.inr (by simp [h''])
      · exact Or.inr (List.mem_cons_of_mem _ h')

theorem keepMaximal_subFree :
    ∀ (l kept : List Str),
      (l.Pairwise fun a b => b.length ≤ a.length) →
      SubFree kept →
      (∀ p ∈ l, ∀ k ∈ kept, p.length ≤ k.length) →
      SubFree (keepMaximal l kept) := by
  intro l
  induction l with
  | nil => intro kept _ hk _; simpa only [keepMaximal] using hk
  | cons p rest ih =>
    intro kept hpw hk hlen
    rw [List.pairwise_cons] at hpw
    obtain ⟨hphead, hptail⟩ := hpw
    by_cases h : kept.any (fun k => isSubstr p k) = true
    · rw [keepMaximal_pos h]
      exact ih kept hptail hk (fun x hx k hk' => hlen x (List.mem_cons_of_mem _ hx) k hk')
    · rw [keepMaximal_neg h]
      have hnosub : ∀ k ∈ kept, ¬ p <:+: k := by
        intro k hk' hcon
        have := (List.any_eq_true.mpr ⟨k, hk', (isSubstr_iff p k).mpr hcon⟩)
        exact h this
      refine ih (kept ++ [p]) hptail ?_ ?_
      · intro x hx y hy hxy
        rcases List.mem_append.mp hx with hx' | hx' <;>
          rcases List.mem_append.mp hy with hy' | hy'
        · exact hk x hx' y hy' hxy
        · simp at hy'
          subst hy'
          intro hcon
          have h1 : y.length ≤ x.length := hlen y (by simp) x hx'
          have h2 : x.length ≤ y.length := hcon.length_le
          exact hxy (hcon.eq_of_length (by omega))
        · simp at hx'
          subst hx'
          exact hnosub y hy'
        · simp at hx' hy'
          exact absurd (hx'.trans hy'.symm) hxy
      · intro x hx k hk'
        rcases List.mem_append.mp hk' with h' | h'
        · exact hlen x (List.mem_cons_of_mem _ hx) k h'
        · simp at h'
          subst h'
          exact hphead x hx

theorem keepMaximal_nodup : ∀ (l kept : List Str), kept.Nodup → (keepMaximal l kept).Nodup := by
  intro l
  induction l with
  | nil => intro kept hk; simpa only [keepMaximal] using hk
  | cons p rest ih =>
    intro kept hk
    by_cases h : kept.any (fun k => isSubstr p k) = true
    · rw [keepMaximal_pos h]
      exact ih kept hk
    · rw [keepMaximal_neg h]
      refine ih (kept ++ [p]) ?_
      have hp : p ∉ kept := by
        intro hp
        exact h (List.any_eq_true.mpr ⟨p, hp, isSubstr_self p⟩)
      exact List.Nodup.append hk (List.nodup_singleton p) (by
        intro a ha hb
        simp at hb
        subst hb
        exact hp ha)

theorem filter_subphrases_sub (l : List Str) : ∀ p ∈ filter_subphrases l, p ∈ l := by
  intro p hp
  unfold filter_subphrases at hp
  by_cases h : l = []
  · simp [h] at hp
  · simp only [h, if_false] at hp
    rcases mem_keepMaximal _ _ p hp with h' | h'
    · simp at h'
    · exact dedupF_sub _ _ p ((mem_sortBy _ _ p).mp h')

theorem filter_subphrases_subFree (l : List Str) : SubFree (filter_subphrases l) := by
  unfold filter_subphrases
  by_cases h : l = []
  · simp only [h, if_true]
    intro p hp
    simp at hp
  · simp only [h, if_false]
    refine keepMaximal_subFree _ [] ?_ ?_ ?_
    · exact (pairwise_sortBy lenLe lenLe_trans lenLe_total _).imp (by
        intro a b hab
        simpa [lenLe] using hab)
    · intro p hp; simp at hp
    · intro p _ k hk; simp at hk

theorem filter_subphrases_nodup (l : List Str) : (filter_subphrases l).Nodup := by
  unfold filter_subphrases
  by_cases h : l = []
  · simp [h]
  · simp only [h, if_false]
    exact keepMaximal_nodup _ [] List.nodup_nil

theorem flatMapNil {α β : Type} (f : α → List β) :
    ∀ l : List α, (∀ a ∈ l, f a = []) → l.flatMap f = [] := by
  intro l
  induction l with
  | nil => intro _; rfl
  | cons x xs ih =>
    intro h
    rw [List.flatMap_cons, h x (by simp), List.nil_append]
    exact ih (fun a ha => h a (by simp [ha]))

theorem flatMapCongr {α β : Type} (f g : α → List β) :
    ∀ l : List α, (∀ a ∈ l, f a = g a) → l.flatMap f = l.flatMap g := by
  intro l
  induction l with
  | nil => intro _; rfl
  | cons x xs ih =>
    intro h
    rw [List.flatMap_cons, List.flatMap_cons, h x (by simp),
      ih (fun a ha => h a (by simp [ha]))]

theorem filterMapIte {α β : Type} (P : α → Prop) [DecidablePred P] (g : α → β) :
    ∀ l : List α,
      (l.filterMap fun a => if P a then some (g a) else none)
        = (l.filter (fun a => decide (P a))).map g := by
  intro l
  induction l with
  | nil => rfl
  | cons x xs ih =>
    by_cases h : P x
    · simp [List.filterMap_cons, List.filter_cons, h, ih]
    · simp [List.filterMap_cons, List.filter_cons, h, ih]

theorem wordsAux_nilArg (cur : Str) :
    wordsAux cur [] = if cur = [] then [] else [cur.reverse] := rfl

theorem wordsAux_space (cur s : Str) :
    wordsAux cur (' ' :: s) = (if cur = [] then [] else [cur.reverse]) ++ wordsAux [] s := by
  have h : (' ').isWhitespace = true := by decide
  simp [wordsAux, h]

theorem wordsAux_nonspace {c : Char} (hc : c.isWhitespace = false) (cur s : Str) :
    wordsAux cur (c :: s) = wordsAux (c :: cur) s := by
  simp [wordsAux, hc]

theorem wordsAux_good :
    ∀ (s cur : Str), (∀ c ∈ cur, c.isWhitespace = false) →
      ∀ t ∈ wordsAux cur s, t ≠ [] ∧ ∀ c ∈ t, c.isWhitespace = false := by
  intro s
  induction s with
  | nil =>
    intro cur hcur t ht
    rw [wordsAux_nilArg] at ht
    by_cases h : cur = []
    · simp [h] at ht
    · simp only [h, if_false, List.mem_singleton] at ht
      subst ht
      refine ⟨by simpa using h, ?_⟩
      intro c hc
      exact hcur c (List.mem_reverse.mp hc)
  | cons c cs ih =>
    intro cur hcur t ht
    by_cases hw : c.isWhitespace = true
    · rw [show wordsAux cur (c :: cs)
          = (if cur = [] then [] else [cur.reverse]) ++ wordsAux [] cs from by
        simp [wordsAux, hw]] at ht
      rcases List.mem_append.mp ht with h' | h'
      · by_cases h : cur = []
        · simp [h] at h'
        · simp only [h, if_false, List.mem_singleton] at h'
          subst h'
          refine ⟨by simpa using h, ?_⟩
          intro d hd
          exact hcur d (List.mem_reverse.mp hd)
      · exact ih [] (by simp) t h'
    · rw [wordsAux_nonspace (by simpa using hw)] at ht
      refine ih (c :: cur) ?_ t ht
      intro d hd
      rcases List.mem_cons.mp hd with rfl | hd'
      · simpa using hw
      · exact hcur d hd'

theorem words_good (s : Str) : ∀ t ∈ words s, t ≠ [] ∧ ∀ c ∈ t, c.isWhitespace = false :=
  wordsAux_good s [] (by simp)

theorem goodToks_tokSimple : goodToks tokSimple := by
  intro s t ht
  exact words_good s t ht

theorem wordsAux_chunk :
    ∀ t : Str, (∀ c ∈ t, c.isWhitespace = false) →
      ∀ (cur s : Str), wordsAux cur (t ++ s) = wordsAux (t.reverse ++ cur) s := by
  intro t
  induction t with
  | nil => intro _ cur s; simp
  | cons c t' ih =>
    intro hsp cur s
    have hc : c.isWhitespace = false := hsp c (by simp)
    rw [List.cons_append, wordsAux_nonspace hc,
      ih (fun d hd => hsp d (by simp [hd])) (c :: cur) s]
    congr 1
    simp

theorem words_joinTokens :
    ∀ ts : List Str, (∀ t ∈ ts, t ≠ [] ∧ ∀ c ∈ t, c.isWhitespace = false) →
      words (joinTokens ts) = ts := by
  intro ts
  induction ts with
  | nil => intro _; rfl
  | cons t ts' ih =>
    intro h
    obtain ⟨hne, hsp⟩ := h t (by simp)
    cases ts' with
    | nil =>
      show words (joinTokens [t]) = [t]
      rw [show joinTokens [t] = t from rfl]
      unfold words
      rw [show t = t ++ ([] : Str) from by simp, wordsAux_chunk t hsp [] [],
        wordsAux_nilArg, if_neg (by simpa using hne)]
      simp
    | cons t2 ts'' =>
      show words (joinTokens (t :: t2 :: ts'')) = t :: t2 :: ts''
      rw [show joinTokens (t :: t2 :: ts'') = t ++ (' ' :: joinTokens (t2 :: ts'')) from rfl]
      unfold words
      rw [wordsAux_chunk t hsp [] (' ' :: joinTokens (t2 :: ts'')), wordsAux_space,
        if_neg (by simpa using hne)]
      simp only [List.append_nil, List.reverse_reverse]
      rw [show wordsAux [] (joinTokens (t2 :: ts'')) = words (joinTokens (t2 :: ts'')) from rfl,
        ih (fun x hx => h x (by simp [hx]))]
      rfl

theorem splitByEntity_nilW (ets : List Str) (cur : List Str) :
    splitByEntity ets cur [] = if cur = [] then [] else [cur] := rfl

theorem splitByEntity_pos (ets : List Str) {t : List Char} (h : t ∈ ets) (cur : List Str)
    (ts : List Str) :
    splitByEntity ets cur (t :: ts)
      = (if cur = [] then [] else [cur]) ++ splitByEntity ets [] ts := by
  simp [splitByEntity, h]

theorem splitByEntity_neg (ets : List Str) {t : List Char} (h : t ∉ ets) (cur : List Str)
    (ts : List Str) :
    splitByEntity ets cur (t :: ts) = splitByEntity ets (cur ++ [t]) ts := by
  simp [splitByEntity, h]

theorem splitByEntity_infixW (ets : List Str) :
    ∀ (w cur : List Str), ∀ seg ∈ splitByEntity ets cur w, seg <:+: cur ++ w := by
  intro w
  induction w with
  | nil =>
    intro cur seg hseg
    rw [splitByEntity_nilW] at hseg
    by_cases h : cur = []
    · simp [h] at hseg
    · simp only [h, if_false, List.mem_singleton] at hseg
      subst hseg
      rw [List.append_nil]
  | cons t ts ih =>
    intro cur seg hseg
    by_cases h : t ∈ ets
    · rw [splitByEntity_pos ets h] at hseg
      rcases List.mem_append.mp hseg with h' | h'
      · by_cases hc : cur = []
        · simp [hc] at h'
        · simp only [hc, if_false, List.mem_singleton] at h'
          subst h'
          exact infixOfPre ⟨t :: ts, rfl⟩
      · have h2 := ih [] seg h'
        rw [List.nil_append] at h2
        exact h2.trans (infixOfSuf ⟨cur ++ [t], by simp⟩)
    · rw [splitByEntity_neg ets h] at hseg
      have h2 := ih (cur ++ [t]) seg hseg
      rwa [List.append_assoc, List.singleton_append] at h2

theorem splitByEntity_notMem (ets : List Str) :
    ∀ (w cur : List Str), (∀ x ∈ cur, x ∉ ets) →
      ∀ seg ∈ splitByEntity ets cur w, ∀ x ∈ seg, x ∉ ets := by
  intro w
  induction w with
  | nil =>
    intro cur hcur seg hseg
    rw [splitByEntity_nilW] at hseg
    by_cases h : cur = []
    · simp [h] at hseg
    · simp only [h, if_false, List.mem_singleton] at hseg
      subst hseg
      exact hcur
  | cons t ts ih =>
    intro cur hcur seg hseg
    by_cases h : t ∈ ets
    · rw [splitByEntity_pos ets h] at hseg
      rcases List.mem_append.mp hseg with h' | h'
      · by_cases hc : cur = []
        · simp [hc] at h'
        · simp only [hc, if_false, List.mem_singleton] at h'
          subst h'
          exact hcur
      · exact ih [] (by simp) seg h'
    · rw [splitByEntity_neg ets h] at hseg
      refine ih (cur ++ [t]) ?_ seg hseg
      intro x hx
      rcases List.mem_append.mp hx with h' | h'
      · exact hcur x h'
      · simp only [List.mem_singleton] at h'
        subst h'
        exact h

theorem trimStopwords_infixSeg (sw seg : List Str) : trimStopwords sw seg <:+: seg := by
  unfold trimStopwords
  have h1 : seg.dropWhile (fun tok => decide (tok ∈ sw)) <:+ seg := List.dropWhile_suffix _
  have h2 := revDropWhilePre (fun tok => decide (tok ∈ sw))
    (seg.dropWhile (fun tok => decide (tok ∈ sw)))
  exact (infixOfPre h2).trans (infixOfSuf h1)

theorem candidatesOf_shape (sw ets : List Str) (windows : List (List Str)) :
    ∀ p ∈ candidatesOf sw ets windows, ∃ w ∈ windows, ∃ ts : List Str,
      ts <:+: w ∧ 2 ≤ ts.length ∧ ts.length ≤ 8 ∧ (∀ t ∈ ts, t ∉ ets) ∧
      p = joinTokens ts := by
  intro p hp
  simp only [candidatesOf, List.mem_flatMap] at hp
  obtain ⟨w, hw, seg, hseg, hp⟩ := hp
  refine ⟨w, hw, ?_⟩
  have hseginf : seg <:+: w := by
    have h2 := splitByEntity_infixW ets w [] seg hseg
    rwa [List.nil_append] at h2
  have hsegmem : ∀ x ∈ seg, x ∉ ets := splitByEntity_notMem ets w [] (by simp) seg hseg
  have hptinf : trimStopwords sw seg <:+: w := (trimStopwords_infixSeg sw seg).trans hseginf
  have hptmem : ∀ x ∈ trimStopwords sw seg, x ∉ ets := fun x hx =>
    hsegmem x ((trimStopwords_infixSeg sw seg).subset hx)
  by_cases h1 : 2 ≤ (trimStopwords sw seg).length ∧ (trimStopwords sw seg).length ≤ 8
  · rw [if_pos h1, List.mem_singleton] at hp
    subst hp
    exact ⟨trimStopwords sw seg, hptinf, h1.1, h1.2, hptmem, rfl⟩
  · rw [if_neg h1] at hp
    by_cases h2 : 8 < (trimStopwords sw seg).length
    · rw [if_pos h2] at hp
      rcases List.mem_cons.mp hp with hp' | hp' <;>
        [skip; rw [List.mem_singleton] at hp']
      · refine ⟨(trimStopwords sw seg).take 6, ?_, ?_, ?_, ?_, hp'⟩
        · exact (infixOfPre ( List.take_prefix 6 (trimStopwords sw seg))).trans hptinf
        · rw [List.length_take]; omega
        · rw [List.length_take]; omega
        · intro x hx
          exact hptmem x (List.take_subset _ _ hx)
      · refine ⟨(trimStopwords sw seg).drop ((trimStopwords sw seg).length - 6),
          ?_, ?_, ?_, ?_, hp'⟩
        · exact (infixOfSuf (List.drop_suffix _ (trimStopwords sw seg))).trans hptinf
        · rw [List.length_drop]; omega
        · rw [List.length_drop]; omega
        · intro x hx
          exact hptmem x (List.drop_subset _ _ hx)
    · rw [if_neg h2] at hp
      simp at hp

theorem windowsOf_infixT (tokens ets : List Str) (W : Nat) :
    ∀ w ∈ windowsOf tokens ets W, w <:+: tokens := by
  intro w hw
  unfold windowsOf at hw
  rw [List.mem_filterMap] at hw
  obtain ⟨i, _, hi⟩ := hw
  by_cases h : (tokens.drop i).take ets.length = ets
  · rw [if_pos h] at hi
    injection hi with hi
    subst hi
    exact slice_infix tokens _ _
  · rw [if_neg h] at hi
    cases hi

theorem gcw_windows_tokens (self : PhraseExtractor) (text e : Str) :
    ∀ w ∈ self.get_context_windows text e, ∃ s : Str,
      w <:+: self.tok.word_tokenize (lowerStr (stripNonWord s)) := by
  intro w hw
  simp only [PhraseExtractor.get_context_windows] at hw
  by_cases h : entityTokens self e = []
  · rw [if_pos h] at hw
    simp at hw
  · rw [if_neg h, List.mem_flatMap] at hw
    obtain ⟨s, _, hw⟩ := hw
    by_cases h2 : isSubstr (lowerStr e) (lowerStr s) = true
    · rw [if_pos h2] at hw
      exact ⟨s, windowsOf_infixT _ _ _ w hw⟩
    · rw [if_neg h2] at hw
      simp at hw

theorem extract_from_article_shape (self : PhraseExtractor) (text e : Str) :
    ∀ p ∈ self.extract_from_article text e,
      ∃ w ∈ self.get_context_windows (cleanText text) e, ∃ ts : List Str,
        ts <:+: w ∧ 2 ≤ ts.length ∧ ts.length ≤ 8 ∧
        (∀ t ∈ ts, t ∉ entityTokens self e) ∧ p = joinTokens ts := by
  intro p hp
  simp only [PhraseExtractor.extract_from_article] at hp
  exact candidatesOf_shape _ _ _ p (dedupF_sub _ _ p (filter_subphrases_sub _ p hp))

theorem extract_from_article_nodup (self : PhraseExtractor) (text e : Str) :
    (self.extract_from_article text e).Nodup := by
  simp only [PhraseExtractor.extract_from_article]
  exact filter_subphrases_nodup _

theorem pdFind_cons_eq {q : Str} {r : PData} {rest : List (Str × PData)} {k : Str}
    (h : q = k) : pdFind ((q, r) :: rest) k = some r := by
  simp [pdFind, h]

theorem pdFind_cons_ne {q : Str} {r : PData} {rest : List (Str × PData)} {k : Str}
    (h : ¬ q = k) : pdFind ((q, r) :: rest) k = pdFind rest k := by
  simp [pdFind, h]

theorem pdCount_cons_ne {q : Str} {r : PData} {rest : List (Str × PData)} {k : Str}
    (h : ¬ q = k) : pdCount ((q, r) :: rest) k = pdCount rest k := by
  unfold pdCount
  rw [pdFind_cons_ne h]

theorem pdFind_mem : ∀ (pd : List (Str × PData)) (k : Str) (r : PData),
    pdFind pd k = some r → (k, r) ∈ pd := by
  intro pd
  induction pd with
  | nil => intro k r h; simp [pdFind] at h
  | cons qr rest ih =>
    intro k r h
    obtain ⟨q, rr⟩ := qr
    by_cases hq : q = k
    · rw [pdFind_cons_eq hq] at h
      injection h with h
      subst h
      subst hq
      simp
    · rw [pdFind_cons_ne hq] at h
      exact List.mem_cons_of_mem _ (ih k r h)

theorem updatePD_cons_eq {q : Str} {r : PData} {rest : List (Str × PData)} {p : Str}
    {url : Option Str} (h : q = p) :
    updatePD ((q, r) :: rest) p url
      = (q, ⟨r.count + 1, addSource r.sources url⟩) :: rest := by
  simp [updatePD, h]

theorem updatePD_cons_ne {q : Str} {r : PData} {rest : List (Str × PData)} {p : Str}
    {url : Option Str} (h : ¬ q = p) :
    updatePD ((q, r) :: rest) p url = (q, r) :: updatePD rest p url := by
  simp [updatePD, h]

theorem updatePD_keys :
    ∀ (pd : List (Str × PData)) (p : Str) (url : Option Str) (k : Str),
      k ∈ (updatePD pd p url).map Prod.fst → k ∈ pd.map Prod.fst ∨ k = p := by
  intro pd
  induction pd with
  | nil =>
    intro p url k hk
    simp [updatePD] at hk
    exact Or.inr hk
  | cons qr rest ih =>
    intro p url k hk
    obtain ⟨q, r⟩ := qr
    by_cases hq : q = p
    · rw [updatePD_cons_eq hq] at hk
      simp only [List.map_cons, List.mem_cons] at hk ⊢
      tauto
    · rw [updatePD_cons_ne hq] at hk
      simp only [List.map_cons, List.mem_cons] at hk ⊢
      rcases hk with h | h
      · tauto
      · rcases ih p url k h with h' | h' <;> tauto

theorem updateAll_keys :
    ∀ (ps : List Str) (pd : List (Str × PData)) (url : Option Str) (k : Str),
      k ∈ (updateAll url pd ps).map Prod.fst → k ∈ pd.map Prod.fst ∨ k ∈ ps := by
  intro ps
  induction ps with
  | nil => intro pd url k hk; exact Or.inl hk
  | cons p ps' ih =>
    intro pd url k hk
    rw [show updateAll url pd (p :: ps') = updateAll url (updatePD pd p url) ps' from rfl] at hk
    rcases ih _ url k hk with h | h
    · rcases updatePD_keys pd p url k h with h' | h'
      · exact Or.inl h'
      · exact Or.inr (by simp [h'])
    · exact Or.inr (by simp [h])

theorem buildPhraseData_keys (self : PhraseExtractor) (e : Str) :
    ∀ (arts : List Article) (pd : List (Str × PData)) (k : Str),
      k ∈ (buildPhraseData self e arts pd).map Prod.fst →
        k ∈ pd.map Prod.fst ∨ ∃ a ∈ arts, k ∈ self.extract_from_article (articleText a) e := by
  intro arts
  induction arts with
  | nil => intro pd k hk; exact Or.inl hk
  | cons a rest ih =>
    intro pd k hk
    rw [show buildPhraseData self e (a :: rest) pd
        = buildPhraseData self e rest
            (updateAll a.url pd (self.extract_from_article (articleText a) e)) from rfl] at hk
    rcases ih _ k hk with h | h
    · rcases updateAll_keys _ _ _ k h with h' | h'
      · exact Or.inl h'
      · exact Or.inr ⟨a, by simp, h'⟩
    · obtain ⟨a', ha', h'⟩ := h
      exact Or.inr ⟨a', by simp [ha'], h'⟩

theorem updatePD_count_self :
    ∀ (pd : List (Str × PData)) (k : Str) (url : Option Str),
      pdCount (updatePD pd k url) k = pdCount pd k + 1 := by
  intro pd
  induction pd with
  | nil => intro k url; simp [updatePD, pdCount, pdFind]
  | cons qr rest ih =>
    intro k url
    obtain ⟨q, r⟩ := qr
    by_cases hq : q = k
    · rw [updatePD_cons_eq hq]
      unfold pdCount
      rw [pdFind_cons_eq hq, pdFind_cons_eq hq]
    · rw [updatePD_cons_ne hq, pdCount_cons_ne hq, pdCount_cons_ne hq]
      exact ih k url

theorem updatePD_count_other :
    ∀ (pd : List (Str × PData)) (p k : Str) (url : Option Str), ¬ p = k →
      pdCount (updatePD pd p url) k = pdCount pd k := by
  intro pd
  induction pd with
  | nil =>
    intro p k url hpk
    simp [updatePD, pdCount, pdFind, hpk]
  | cons qr rest ih =>
    intro p k url hpk
    obtain ⟨q, r⟩ := qr
    by_cases hq : q = p
    · rw [updatePD_cons_eq hq]
      have hqk : ¬ q = k := by rw [hq]; exact hpk
      rw [pdCount_cons_ne hqk, pdCount_cons_ne hqk]
    · rw [updatePD_cons_ne hq]
      by_cases hqk : q = k
      · unfold pdCount
        rw [pdFind_cons_eq hqk, pdFind_cons_eq hqk]
      · rw [pdCount_cons_ne hqk, pdCount_cons_ne hqk]
        exact ih p k url hpk

theorem updateAll_count_notMem :
    ∀ (ps : List Str) (pd : List (Str × PData)) (url : Option Str) (k : Str), k ∉ ps →
      pdCount (updateAll url pd ps) k = pdCount pd k := by
  intro ps
  induction ps with
  | nil => intro pd url k _; rfl
  | cons p ps' ih =>
    intro pd url k hk
    rw [show updateAll url pd (p :: ps') = updateAll url (updatePD pd p url) ps' from rfl]
    rw [ih _ url k (fun h => hk (by simp [h]))]
    exact updatePD_count_other pd p k url (fun h => hk (by simp [h]))

theorem updateAll_count_le :
    ∀ (ps : List Str) (pd : List (Str × PData)) (url : Option Str) (k : Str), ps.Nodup →
      pdCount (updateAll url pd ps) k ≤ pdCount pd k + 1 := by
  intro ps
  induction ps with
  | nil =>
    intro pd url k _
    rw [show updateAll url pd [] = pd from rfl]
    omega
  | cons p ps' ih =>
    intro pd url k hnd
    rw [List.nodup_cons] at hnd
    obtain ⟨hp, hnd⟩ := hnd
    rw [show updateAll url pd (p :: ps') = updateAll url (updatePD pd p url) ps' from rfl]
    by_cases hpk : p = k
    · subst hpk
      rw [updateAll_count_notMem ps' _ url p hp, updatePD_count_self]
    · have h2 := ih (updatePD pd p url) url k hnd
      rw [updatePD_count_other pd p k url hpk] at h2
      exact h2

theorem buildPhraseData_count_le (self : PhraseExtractor) (e : Str) :
    ∀ (arts : List Article) (pd : List (Str × PData)) (k : Str),
      pdCount (buildPhraseData self e arts pd) k ≤ pdCount pd k + arts.length := by
  intro arts
  induction arts with
  | nil => intro pd k; simp [buildPhraseData]
  | cons a rest ih =>
    intro pd k
    rw [show buildPhraseData self e (a :: rest) pd
        = buildPhraseData self e rest
            (updateAll a.url pd (self.extract_from_article (articleText a) e)) from rfl]
    have h1 := ih (updateAll a.url pd (self.extract_from_article (articleText a) e)) k
    have h2 := updateAll_count_le (self.extract_from_article (articleText a) e) pd a.url k
      (extract_from_article_nodup self (articleText a) e)
    simp only [List.length_cons]
    omega

theorem addSource_len (s : List Str) (url : Option Str) :
    (addSource s url).length ≤ s.length + 1 := by
  cases url with
  | none => simp [addSource]
  | some u =>
    by_cases h1 : u = []
    · simp [addSource, h1]
    · by_cases h2 : u ∈ s
      · simp [addSource, h1, h2]
      · simp [addSource, h1, h2]

theorem addSource_mem (s : List Str) (url : Option Str) :
    ∀ u ∈ addSource s url, u ∈ s ∨ url = some u := by
  cases url with
  | none => intro u hu; exact Or.inl hu
  | some v =>
    intro u hu
    by_cases h1 : v = []
    · simp only [addSource, h1, if_true] at hu
      exact Or.inl hu
    · by_cases h2 : v ∈ s
      · simp only [addSource, h1, h2, if_false, if_true] at hu
        exact Or.inl hu
      · simp only [addSource, h1, h2, if_false] at hu
        rcases List.mem_append.mp hu with h | h
        · exact Or.inl h
        · simp only [List.mem_singleton] at h
          subst h
          exact Or.inr rfl

theorem updatePD_srcInv (S : List Article) :
    ∀ (pd : List (Str × PData)) (p : Str) (url : Option Str), SrcInv S pd →
      (∀ u, url = some u → ∃ a ∈ S, a.url = some u) → SrcInv S (updatePD pd p url) := by
  intro pd
  induction pd with
  | nil =>
    intro p url _ hurl pr hpr
    simp only [updatePD, List.mem_singleton] at hpr
    subst hpr
    refine ⟨by simpa using addSource_len [] url, ?_⟩
    intro u hu
    rcases addSource_mem [] url u hu with h | h
    · simp at h
    · exact hurl u h
  | cons qr rest ih =>
    intro p url hinv hurl pr hpr
    obtain ⟨q, r⟩ := qr
    by_cases hq : q = p
    · rw [updatePD_cons_eq hq] at hpr
      rcases List.mem_cons.mp hpr with h | h
      · subst h
        have hh := hinv (q, r) (by simp)
        have hlen : r.sources.length ≤ r.count := hh.1
        have hmem : ∀ u ∈ r.sources, ∃ a ∈ S, a.url = some u := hh.2
        constructor
        · show (addSource r.sources url).length ≤ r.count + 1
          have := addSource_len r.sources url
          omega
        · intro u hu
          rcases addSource_mem r.sources url u hu with h' | h'
          · exact hmem u h'
          · exact hurl u h'
      · exact hinv pr (List.mem_cons_of_mem _ h)
    · rw [updatePD_cons_ne hq] at hpr
      rcases List.mem_cons.mp hpr with h | h
      · subst h
        exact hinv (q, r) (by simp)
      · exact ih p url (fun x hx => hinv x (List.mem_cons_of_mem _ hx)) hurl pr h

theorem updateAll_srcInv (S : List Article) :
    ∀ (ps : List Str) (pd : List (Str × PData)) (url : Option Str), SrcInv S pd →
      (∀ u, url = some u → ∃ a ∈ S, a.url = some u) → SrcInv S (updateAll url pd ps) := by
  intro ps
  induction ps with
  | nil => intro pd url hinv _; exact hinv
  | cons p ps' ih =>
    intro pd url hinv hurl
    rw [show updateAll url pd (p :: ps') = updateAll url (updatePD pd p url) ps' from rfl]
    exact ih _ url (updatePD_srcInv S pd p url hinv hurl) hurl

theorem srcInv_mono (S S' : List Article) (pd : List (Str × PData)) (hinv : SrcInv S pd)
    (hss : ∀ a ∈ S, a ∈ S') : SrcInv S' pd := by
  intro pr hpr
  obtain ⟨hlen, hmem⟩ := hinv pr hpr
  refine ⟨hlen, ?_⟩
  intro u hu
  obtain ⟨a, ha, h⟩ := hmem u hu
  exact ⟨a, hss a ha, h⟩

theorem buildPhraseData_srcInv (self : PhraseExtractor) (e : Str) :
    ∀ (L : List Article) (pd : List (Str × PData)) (S : List Article), SrcInv S pd →
      SrcInv (S ++ L) (buildPhraseData self e L pd) := by
  intro L
  induction L with
  | nil =>
    intro pd S hinv
    exact srcInv_mono S (S ++ []) pd hinv (fun x hx => List.mem_append.mpr (Or.inl hx))
  | cons a rest ih =>
    intro pd S hinv
    rw [show buildPhraseData self e (a :: rest) pd
        = buildPhraseData self e rest
            (updateAll a.url pd (self.extract_from_article (articleText a) e)) from rfl]
    have h1 : SrcInv (S ++ [a]) (updateAll a.url pd (self.extract_from_article (articleText a) e)) := by
      refine updateAll_srcInv (S ++ [a]) _ pd a.url
        (srcInv_mono S (S ++ [a]) pd hinv (fun x hx => List.mem_append.mpr (Or.inl hx))) ?_
      intro u hu
      exact ⟨a, by simp, hu⟩
    have h2 := ih _ (S ++ [a]) h1
    refine srcInv_mono _ _ _ h2 ?_
    intro x hx
    simp only [List.mem_append, List.mem_cons, List.mem_singleton] at hx ⊢
    tauto

theorem finalizePD_shape (pd : List (Str × PData)) :
    ∀ rec ∈ finalizePD pd, ∃ (p : Str) (r : PData),
      pdFind pd p = some r ∧ rec = ⟨p, r.count, r.sources⟩ ∧ 1 < r.count ∧
      p ∈ filter_subphrases (sortBy lenLe (pd.map Prod.fst)) := by
  intro rec hrec
  simp only [finalizePD] at hrec
  rw [List.mem_map] at hrec
  obtain ⟨pr, hpr, hrec⟩ := hrec
  rw [List.mem_filter] at hpr
  obtain ⟨hpr, hcnt⟩ := hpr
  rw [mem_sortBy] at hpr
  rw [List.mem_filterMap] at hpr
  obtain ⟨p, hp, hpr'⟩ := hpr
  rw [Option.map_eq_some'] at hpr'
  obtain ⟨r, hfind, hpr'⟩ := hpr'
  subst hpr'
  exact ⟨p, r, hfind, hrec.symm, by simpa using hcnt, hp⟩

theorem finalizePD_sorted (pd : List (Str × PData)) :
    (finalizePD pd).Pairwise (fun a b => b.count ≤ a.count) := by
  simp only [finalizePD]
  rw [List.pairwise_map]
  refine ((pairwise_sortBy cntLe cntLe_trans cntLe_total _).imp ?_).sublist
    (List.filter_sublist _)
  intro a b hab
  simpa [cntLe] using hab

theorem extract_phrases_shape (self : PhraseExtractor) (e : Str) (arts : List Article) :
    ∀ rec ∈ self.extract_phrases e arts, ∃ (p : Str) (r : PData),
      pdFind (buildPhraseData self e arts []) p = some r ∧
      rec = ⟨p, r.count, r.sources⟩ ∧ 1 < r.count ∧
      p ∈ filter_subphrases (sortBy lenLe ((buildPhraseData self e arts []).map Prod.fst)) := by
  intro rec hrec
  simp only [PhraseExtractor.extract_phrases] at hrec
  exact finalizePD_shape _ rec hrec

theorem filterMapCongr {α β : Type} (f g : α → Option β) :
    ∀ l : List α, (∀ a ∈ l, f a = g a) → l.filterMap f = l.filterMap g := by
  intro l
  induction l with
  | nil => intro _; rfl
  | cons x xs ih =>
    intro h
    rw [List.filterMap_cons, List.filterMap_cons, h x (by simp),
      ih (fun a ha => h a (by simp [ha]))]

theorem take_one_drop (tokens : List Str) (i : Nat) (hi : i < tokens.length) (t : Str) :
    ((tokens.drop i).take 1 = [t]) ↔ tokens[i]? = some t := by
  have hd := List.drop_eq_getElem_cons hi
  have h3 : List.take 1 (tokens[i] :: List.drop (i + 1) tokens) = [tokens[i]] := rfl
  rw [List.getElem?_eq_getElem hi]
  constructor
  · intro h2
    rw [hd, h3] at h2
    injection h2 with h4 _
    rw [h4]
  · intro h2
    injection h2 with h2
    rw [hd, h3, h2]

theorem windowsOf_single (tokens : List Str) (t : Str) (W : Nat) :
    windowsOf tokens [t] W =
      ((List.range tokens.length).filter (fun i => decide (tokens[i]? = some t))).map
        (fun i => (tokens.take (min tokens.length (i + W + 1))).drop (i - W)) := by
  unfold windowsOf
  rw [← filterMapIte (fun i => tokens[i]? = some t)
    (fun i => (tokens.take (min tokens.length (i + W + 1))).drop (i - W))]
  have hl : tokens.length + 1 - ([t] : List Str).length = tokens.length := by simp
  rw [hl]
  apply filterMapCongr
  intro i hi
  rw [List.mem_range] at hi
  have hcond := take_one_drop tokens i hi t
  have hlen : ([t] : List Str).length = 1 := rfl
  rw [hlen]
  have harith : i + 1 + W = i + W + 1 := by omega
  rw [harith]
  by_cases h : tokens[i]? = some t
  · rw [if_pos (hcond.mpr h), if_pos h]
  · rw [if_neg (fun hc => h (hcond.mp hc)), if_neg h]

theorem gcw_char (self : PhraseExtractor) (text e t : Str)
    (h : entityTokens self e = [t]) :
    self.get_context_windows text e =
      (self.tok.sent_tokenize text).flatMap (fun s =>
        if isSubstr (lowerStr e) (lowerStr s) then
          ((List.range (self.tok.word_tokenize (lowerStr (stripNonWord s))).length).filter
            (fun i =>
              decide ((self.tok.word_tokenize (lowerStr (stripNonWord s)))[i]? = some t))).map
            (fun i => ((self.tok.word_tokenize (lowerStr (stripNonWord s))).take
                (min (self.tok.word_tokenize (lowerStr (stripNonWord s))).length
                  (i + self.window_size + 1))).drop (i - self.window_size))
        else []) := by
  simp only [PhraseExtractor.get_context_windows]
  rw [h, if_neg (by simp : ¬ ([t] : List Str) = [])]
  apply flatMapCongr
  intro s _
  by_cases hs : isSubstr (lowerStr e) (lowerStr s) = true
  · rw [if_pos hs, if_pos hs]
    exact windowsOf_single _ t self.window_size
  · rw [if_neg hs, if_neg hs]

theorem gcw_nil (self : PhraseExtractor) (text e : Str)
    (h : ∀ s ∈ self.tok.sent_tokenize text, isSubstr (lowerStr e) (lowerStr s) = false) :
    self.get_context_windows text e = [] := by
  simp only [PhraseExtractor.get_context_windows]
  by_cases he : entityTokens self e = []
  · rw [if_pos he]
  · rw [if_neg he]
    apply flatMapNil
    intro s hs
    rw [if_neg (by rw [h s hs]; simp)]

theorem extract_from_article_nilOut (self : PhraseExtractor) (text e : Str)
    (h : ∀ s ∈ self.tok.sent_tokenize (cleanText text),
      isSubstr (lowerStr e) (lowerStr s) = false) :
    self.extract_from_article text e = [] := by
  simp only [PhraseExtractor.extract_from_article]
  rw [gcw_nil self (cleanText text) e h]
  rfl

theorem buildPhraseData_const (self : PhraseExtractor) (e : Str) :
    ∀ (arts : List Article) (pd : List (Str × PData)),
      (∀ a ∈ arts, self.extract_from_article (articleText a) e = []) →
      buildPhraseData self e arts pd = pd := by
  intro arts
  induction arts with
  | nil => intro pd _; rfl
  | cons a rest ih =>
    intro pd h
    rw [show buildPhraseData self e (a :: rest) pd
        = buildPhraseData self e rest
            (updateAll a.url pd (self.extract_from_article (articleText a) e)) from rfl]
    rw [h a (by simp), show updateAll a.url pd [] = pd from rfl]
    exact ih pd (fun x hx => h x (by simp [hx]))

theorem extract_phrases_noOccur (self : PhraseExtractor) (e : Str) (arts : List Article)
    (h : ∀ a ∈ arts, ∀ s ∈ self.tok.sent_tokenize (cleanText (articleText a)),
      isSubstr (lowerStr e) (lowerStr s) = false) :
    self.extract_phrases e arts = [] := by
  simp only [PhraseExtractor.extract_phrases]
  rw [buildPhraseData_const self e arts []
    (fun a ha => extract_from_article_nilOut self (articleText a) e (h a ha))]
  rfl

theorem extract_phrases_no_entity_token (self : PhraseExtractor) (e : Str) (arts : List Article)
    (hg : goodToks self.tok) :
    ∀ rec ∈ self.extract_phrases e arts, ∀ t ∈ entityTokens self e, t ∉ words rec.phrase := by
  intro rec hrec t ht
  obtain ⟨p, r, hfind, hreceq, hcnt, hkept⟩ := extract_phrases_shape self e arts rec hrec
  have hp : rec.phrase = p := by rw [hreceq]
  rw [hp]
  have hkeys := filter_subphrases_sub _ p hkept
  rw [mem_sortBy] at hkeys
  rcases buildPhraseData_keys self e arts [] p hkeys with h | h
  · simp at h
  · obtain ⟨a, _, hpa⟩ := h
    obtain ⟨w, hw, ts, hinf, _, _, hets, hjoin⟩ :=
      extract_from_article_shape self (articleText a) e p hpa
    obtain ⟨s, hws⟩ := gcw_windows_tokens self (cleanText (articleText a)) e w hw
    have hgood : ∀ x ∈ ts, x ≠ [] ∧ ∀ c ∈ x, c.isWhitespace = false := by
      intro x hx
      exact hg _ x (hws.subset (hinf.subset hx))
    rw [hjoin, words_joinTokens ts hgood]
    intro hmem
    exact hets t hmem ht

/-- C1: for every entity string and every article list (over any tokenizers and
stop-word set), no two distinct phrase strings in the final output of
`extract_phrases` stand in a substring relationship. -/
theorem claim_C1_substring_free (self : PhraseExtractor) (e : Str) (arts : List Article)
    (p q : Str) (hp : p ∈ (self.extract_phrases e arts).map PhraseRecord.phrase)
    (hq : q ∈ (self.extract_phrases e arts).map PhraseRecord.phrase) (hne : p ≠ q) :
    ¬ p <:+: q := by
  rw [List.mem_map] at hp hq
  obtain ⟨rp, hrp, hpe⟩ := hp
  obtain ⟨rq, hrq, hqe⟩ := hq
  obtain ⟨pp, rr, _, hpeq, _, hpkept⟩ := extract_phrases_shape self e arts rp hrp
  obtain ⟨qq, rr2, _, hqeq, _, hqkept⟩ := extract_phrases_shape self e arts rq hrq
  have h1 : p = pp := by rw [← hpe, hpeq]
  have h2 : q = qq := by rw [← hqe, hqeq]
  rw [h1, h2]
  rw [h1, h2] at hne
  exact filter_subphrases_subFree _ pp hpkept qq hqkept hne

/-- Witness for C1: a concrete run with two distinct output phrases, neither a
substring of the other. -/
theorem claim_C1_substring_free_witness :
    (("zz xx yy").toList ∈ (exSimple.extract_phrases (("ee").toList) [artZ, artZ]).map
        PhraseRecord.phrase) ∧
    (("aa bb").toList ∈ (exSimple.extract_phrases (("ee").toList) [artZ, artZ]).map
        PhraseRecord.phrase) ∧
    ("zz xx yy").toList ≠ ("aa bb").toList ∧
    ¬ ("zz xx yy").toList <:+: ("aa bb").toList :=
  ⟨by decide, by decide, by decide,
    claim_C1_substring_free exSimple (("ee").toList) [artZ, artZ] _ _ (by decide) (by decide)
      (by decide)⟩

/-- C2 counterexample: the code emits a phrase of 5 tokens (segments of up to 8
tokens are kept whole), refuting the claim that every candidate phrase joins at
most 4 window tokens. -/
theorem claim_C2_counterexample :
    ("aa bb cc dd ee").toList ∈
      exSimple.extract_from_article (("aa bb cc dd ee ff").toList) (("ff").toList) ∧
    (words (("aa bb cc dd ee").toList)).length = 5 :=
  ⟨by decide, by decide⟩

/-- C2 amended: every phrase emitted by per-article extraction joins between 2
and 8 consecutive window tokens (a trimmed segment of 2..8 tokens is kept
whole; longer segments contribute their first 6 and last 6 tokens). -/
theorem claim_C2_phrase_token_range (self : PhraseExtractor) (text e : Str) (p : Str)
    (hp : p ∈ self.extract_from_article text e) :
    ∃ w ∈ self.get_context_windows (cleanText text) e, ∃ ts : List Str,
      ts <:+: w ∧ 2 ≤ ts.length ∧ ts.length ≤ 8 ∧ p = joinTokens ts := by
  obtain ⟨w, hw, ts, h1, h2, h3, _, h5⟩ := extract_from_article_shape self text e p hp
  exact ⟨w, hw, ts, h1, h2, h3, h5⟩

/-- Witness for the amended C2 at a concrete input. -/
theorem claim_C2_phrase_token_range_witness :
    (("aa bb").toList ∈ exSimple.extract_from_article (("aa bb ee").toList) (("ee").toList)) ∧
    (∃ w ∈ exSimple.get_context_windows (cleanText (("aa bb ee").toList)) (("ee").toList),
      ∃ ts : List Str, ts <:+: w ∧ 2 ≤ ts.length ∧ ts.length ≤ 8 ∧
        ("aa bb").toList = joinTokens ts) :=
  ⟨by decide, claim_C2_phrase_token_range exSimple _ _ _ (by decide)⟩

/-- C3: for well-behaved word tokenizers (nonempty, whitespace-free tokens), no
output phrase of `extract_phrases` contains a normalized entity token as a
whole word among its member tokens. -/
theorem claim_C3_no_entity_token (self : PhraseExtractor) (e : Str) (arts : List Article)
    (hg : goodToks self.tok) (rec : PhraseRecord) (hrec : rec ∈ self.extract_phrases e arts)
    (t : Str) (ht : t ∈ entityTokens self e) : t ∉ words rec.phrase :=
  extract_phrases_no_entity_token self e arts hg rec hrec t ht

/-- Witness for C3 at a concrete input. -/
theorem claim_C3_no_entity_token_witness :
    ((⟨("aa bb").toList, 2, []⟩ : PhraseRecord) ∈
      exSimple.extract_phrases (("ee").toList) [artA, artA]) ∧
    (("ee").toList ∈ entityTokens exSimple (("ee").toList)) ∧
    ("ee").toList ∉ words (("aa bb").toList) :=
  ⟨by decide, by decide,
    claim_C3_no_entity_token exSimple (("ee").toList) [artA, artA] goodToks_tokSimple
      (⟨("aa bb").toList, 2, []⟩ : PhraseRecord) (by decide) (("ee").toList) (by decide)⟩

/-- C4: every record in the final output of `extract_phrases` has count at
least 2 (records with count 1 are dropped by the saliency filter). -/
theorem claim_C4_count_at_least_two (self : PhraseExtractor) (e : Str) (arts : List Article)
    (rec : PhraseRecord) (hrec : rec ∈ self.extract_phrases e arts) : 2 ≤ rec.count := by
  obtain ⟨p, r, _, hreceq, hcnt, _⟩ := extract_phrases_shape self e arts rec hrec
  rw [hreceq]
  show 2 ≤ r.count
  omega

/-- Witness for C4 at a concrete input. -/
theorem claim_C4_count_at_least_two_witness :
    ((⟨("aa bb").toList, 2, []⟩ : PhraseRecord) ∈
      exSimple.extract_phrases (("ee").toList) [artA, artA]) ∧
    2 ≤ (⟨("aa bb").toList, 2, []⟩ : PhraseRecord).count :=
  ⟨by decide, claim_C4_count_at_least_two exSimple (("ee").toList) [artA, artA]
    (⟨("aa bb").toList, 2, []⟩ : PhraseRecord) (by decide)⟩

/-- C5 counterexample: on a concrete input with two equal-count phrases the
output is not tie-broken alphabetically (`zz xx yy` precedes `aa bb` because
equal-count records keep the descending-length order of the substring filter,
see line 213: the sort key is only the count). -/
theorem claim_C5_counterexample :
    ¬ (exSimple.extract_phrases (("ee").toList) [artZ, artZ]).Pairwise
      (fun a b => b.count < a.count ∨ (a.count = b.count ∧ strLeB a.phrase b.phrase = true)) := by
  decide

/-- C5 amended: the output of `extract_phrases` is sorted by count descending;
no alphabetical tie-break is applied for equal counts (ties keep the
aggregation order inherited from the substring-dominance filter). -/
theorem claim_C5_sorted_by_count (self : PhraseExtractor) (e : Str) (arts : List Article) :
    (self.extract_phrases e arts).Pairwise (fun a b => b.count ≤ a.count) := by
  simp only [PhraseExtractor.extract_phrases]
  exact finalizePD_sorted _

/-- C6: the default half-width is 7, and for an entity normalizing to a single
token `t`, `get_context_windows` emits, for every qualifying sentence and for
every index `i` whose token equals `t` (not only the first), exactly the window
`tokens[max(0, i - W) : min(len(tokens), i + W + 1))`. -/
theorem claim_C6_window_characterization (self : PhraseExtractor) (text e t : Str)
    (h : entityTokens self e = [t]) :
    (∀ (tk : Tokenizers) (sw : List Str),
      ({ stopwords := sw, tok := tk } : PhraseExtractor).window_size = 7) ∧
    self.get_context_windows text e =
      (self.tok.sent_tokenize text).flatMap (fun s =>
        if isSubstr (lowerStr e) (lowerStr s) then
          ((List.range (self.tok.word_tokenize (lowerStr (stripNonWord s))).length).filter
            (fun i =>
              decide ((self.tok.word_tokenize (lowerStr (stripNonWord s)))[i]? = some t))).map
            (fun i => ((self.tok.word_tokenize (lowerStr (stripNonWord s))).take
                (min (self.tok.word_tokenize (lowerStr (stripNonWord s))).length
                  (i + self.window_size + 1))).drop (i - self.window_size))
        else []) :=
  ⟨fun _ _ => rfl, gcw_char self text e t h⟩

/-- Witness for C6 at a concrete input with two entity occurrences in distinct
sentences. -/
theorem claim_C6_window_characterization_witness :
    (∀ (tk : Tokenizers) (sw : List Str),
      ({ stopwords := sw, tok := tk } : PhraseExtractor).window_size = 7) ∧
    exSimple.get_context_windows (("aa ee bb. cc ee").toList) (("ee").toList) =
      (exSimple.tok.sent_tokenize (("aa ee bb. cc ee").toList)).flatMap (fun s =>
        if isSubstr (lowerStr (("ee").toList)) (lowerStr s) then
          ((List.range (exSimple.tok.word_tokenize (lowerStr (stripNonWord s))).length).filter
            (fun i =>
              decide ((exSimple.tok.word_tokenize
                (lowerStr (stripNonWord s)))[i]? = some (("ee").toList)))).map
            (fun i => ((exSimple.tok.word_tokenize (lowerStr (stripNonWord s))).take
                (min (exSimple.tok.word_tokenize (lowerStr (stripNonWord s))).length
                  (i + exSimple.window_size + 1))).drop (i - exSimple.window_size))
        else []) :=
  claim_C6_window_characterization exSimple (("aa ee bb. cc ee").toList) (("ee").toList)
    (("ee").toList) (by decide)

/-- C7: the article loop of `extract_phrases` (lines 186-201) has no exception
handler, so a tokenization failure on one article aborts the whole batch,
instead of being logged and skipped: with the failing middle article the run
returns an error, while the same batch without it yields a nonempty result. -/
theorem claim_C7_exception_aborts_batch :
    exE.extract_phrases (("ee").toList) [artA, artQ, artA] = .error ("boom") ∧
    exE.extract_phrases (("ee").toList) [artA, artA]
      = .ok [⟨("aa bb").toList, 2, []⟩] :=
  ⟨rfl, rfl⟩

/-- C8: `extract_phrases` as a state transformer returns the engine state
unchanged, so running it twice on the same (entity, articles) input yields the
same records and the same state: the method is pure apart from reading the
shared stop-word set. -/
theorem claim_C8_pure_rerun (self : PhraseExtractor) (e : Str) (arts : List Article) :
    ((self.extract_phrases_run e arts).2.extract_phrases_run e arts).1
        = (self.extract_phrases_run e arts).1 ∧
    ((self.extract_phrases_run e arts).2.extract_phrases_run e arts).2
        = (self.extract_phrases_run e arts).2 ∧
    (self.extract_phrases_run e arts).2 = self :=
  ⟨rfl, rfl, rfl⟩

/-- C9: `extract_phrases` on an empty article list, or with an entity that
occurs (case-insensitively) in no sentence of any supplied article, returns the
empty list; in this total model no exception is possible. -/
theorem claim_C9_empty_cases (self : PhraseExtractor) (e : Str) (arts : List Article)
    (h : ∀ a ∈ arts, ∀ s ∈ self.tok.sent_tokenize (cleanText (articleText a)),
      isSubstr (lowerStr e) (lowerStr s) = false) :
    self.extract_phrases e arts = [] ∧ self.extract_phrases e [] = [] :=
  ⟨extract_phrases_noOccur self e arts h, rfl⟩

/-- Witness for C9: entity `qq` occurs in no article. -/
theorem claim_C9_empty_cases_witness :
    (∀ a ∈ [artA], ∀ s ∈ exSimple.tok.sent_tokenize (cleanText (articleText a)),
      isSubstr (lowerStr (("qq").toList)) (lowerStr s) = false) ∧
    (exSimple.extract_phrases (("qq").toList) [artA] = [] ∧
      exSimple.extract_phrases (("qq").toList) [] = []) :=
  ⟨by decide, claim_C9_empty_cases exSimple (("qq").toList) [artA] (by decide)⟩

/-- C10: for every output record, the number of distinct source urls is at most
the count, the count is at most the number of input articles (each article
contributes at most once per phrase), and every source url is the url of some
input article. -/
theorem claim_C10_count_sources_bounds (self : PhraseExtractor) (e : Str) (arts : List Article)
    (rec : PhraseRecord) (hrec : rec ∈ self.extract_phrases e arts) :
    rec.sources.length ≤ rec.count ∧ rec.count ≤ arts.length ∧
    ∀ u ∈ rec.sources, ∃ a ∈ arts, a.url = some u := by
  obtain ⟨p, r, hfind, hreceq, _, _⟩ := extract_phrases_shape self e arts rec hrec
  have hmem := pdFind_mem _ p r hfind
  have hsrc := buildPhraseData_srcInv self e arts [] [] (fun pr hpr => by simp at hpr)
  have hpair := hsrc (p, r) hmem
  have hlen : r.sources.length ≤ r.count := hpair.1
  have hurls : ∀ u ∈ r.sources, ∃ a ∈ ([] : List Article) ++ arts, a.url = some u := hpair.2
  have hcnt : r.count ≤ arts.length := by
    have h1 := buildPhraseData_count_le self e arts [] p
    have h2 : pdCount (buildPhraseData self e arts []) p = r.count := by
      unfold pdCount
      rw [hfind]
    have h0 : pdCount [] p = 0 := rfl
    omega
  rw [hreceq]
  refine ⟨hlen, hcnt, ?_⟩
  intro u hu
  obtain ⟨a, ha, h⟩ := hurls u hu
  refine ⟨a, ?_, h⟩
  simpa using ha

/-- Witness for C10: two articles with distinct urls both contribute the same
phrase. -/
theorem claim_C10_count_sources_bounds_witness :
    (recU ∈ exSimple.extract_phrases (("ee").toList) [artU1, artU2]) ∧
    (recU.sources.length ≤ recU.count ∧ recU.count ≤ ([artU1, artU2] : List Article).length ∧
      ∀ u ∈ recU.sources, ∃ a ∈ [artU1, artU2], a.url = some u) :=
  ⟨by decide, claim_C10_count_sources_bounds exSimple (("ee").toList) [artU1, artU2] recU
    (by decide)⟩
